import Mathlib

/-!
# Poll cycle of the big-deal signal bot (`main.go`)

A shallow embedding of `fetchData`, `addCommas` and the update handler of
`main`, together with models of the Go standard-library functions they call
(`strconv.ParseInt`, `strconv.ParseFloat`, `strconv.FormatInt`,
`strings.Replace`, `strings.Join`, `fmt.Sprintf`).

Go strings are modelled by their sequence of characters.  The program only
slices strings inside `addCommas`, which it applies to the ASCII output of
`strconv.FormatInt`, where byte offsets and character offsets coincide.
-/

namespace BigDeal

/-! ## Standard-library models: integers -/

/-- Value of an ASCII decimal digit. -/
def digitVal (c : Char) : Nat := c.toNat - 48

/-- The decimal digit character of `d` (for `d < 10`). -/
def digitChar (d : Nat) : Char := Char.ofNat (48 + d % 10)

/-- Digit loop of `strconv.ParseUint(s, 10, 64)`: every byte must be a decimal
digit; the accumulated value is returned unbounded (the range check is made by
the caller). -/
def parseDigits : List Char → Nat → Option Nat
  | [], acc => some acc
  | c :: cs, acc => if c.isDigit then parseDigits cs (acc * 10 + digitVal c) else none

/-- Model of `strconv.ParseUint(s, 10, 64)` without the range check: the empty
string is a syntax error. -/
def parseUint (s : List Char) : Option Nat :=
  match s with
  | [] => none
  | _ => parseDigits s 0

/-- Model of `strconv.ParseInt(s, 10, 64)`: an optional sign, at least one
decimal digit, nothing else; values outside the int64 range are a range error.
`none` stands for a non-nil error. -/
def parseInt (s : List Char) : Option Int :=
  match s with
  | [] => none
  | '+' :: t => (parseUint t).bind fun n => if n < 2 ^ 63 then some (n : Int) else none
  | '-' :: t => (parseUint t).bind fun n => if n ≤ 2 ^ 63 then some (-(n : Int)) else none
  | _ => (parseUint s).bind fun n => if n < 2 ^ 63 then some (n : Int) else none

/-- Digit loop of `strconv.FormatUint(u, 10)`: least-significant digit first,
prepended to the buffer, until the quotient is zero. -/
def formatBits : Nat → Nat → List Char → List Char
  | 0, _, acc => acc
  | fuel + 1, u, acc =>
    if u / 10 = 0 then digitChar u :: acc
    else formatBits fuel (u / 10) (digitChar u :: acc)

/-- Decimal rendering of a natural number. -/
def formatUint (u : Nat) : List Char := formatBits (u + 1) u []

/-- Model of `strconv.FormatInt(i, 10)`. -/
def formatInt (i : Int) : List Char :=
  if i < 0 then '-' :: formatUint i.natAbs else formatUint i.natAbs

/-! ## `addCommas` -/

/-- Body of `addCommas` with an explicit recursion budget: each call either
returns (`len(s) <= 3`) or recurses on `s[:n-3]`. -/
def addCommasAux : Nat → List Char → List Char
  | 0, s => s
  | fuel + 1, s =>
    if s.length ≤ 3 then s
    else addCommasAux fuel (s.take (s.length - 3)) ++ ',' :: s.drop (s.length - 3)

/-- Source `addCommas` (main.go:245-251).  The recursion is on a string three
bytes shorter, so a budget of `len(s)` calls is never exhausted
(`addCommas_unfold` below is the source's recursion equation). -/
def addCommas (s : List Char) : List Char := addCommasAux s.length s

/-- Model of `strings.Replace(s, ",", "", -1)`. -/
def removeCommas (s : List Char) : List Char := s.filter fun c => c != ','

/-! ## Standard-library model: `strconv.ParseFloat(s, 64)` and `int64(f)` -/

/-- A float64 value: a finite number `± m * 2 ^ e`, an infinity, or NaN. -/
inductive F64 where
  | finite (neg : Bool) (m : Nat) (e : Int)
  | inf (neg : Bool)
  | nan
  deriving DecidableEq, Repr

/-- Go `commonPrefixLenIgnoreCase(s, prefix)` for a lower-case `prefix`. -/
def commonPrefixLenIgnoreCase : List Char → List Char → Nat
  | c :: cs, q :: qs =>
    let c1 := if 'A' ≤ c ∧ c ≤ 'Z' then Char.ofNat (c.toNat + 32) else c
    if c1 = q then commonPrefixLenIgnoreCase cs qs + 1 else 0
  | _, _ => 0

/-- Go `special`: recognises an optionally signed "inf"/"infinity" and an
unsigned "nan", ignoring case; returns the value and the number of bytes
consumed. -/
def special (s : List Char) : Option (F64 × Nat) :=
  let infCase (neg : Bool) (nsign : Nat) (t : List Char) : Option (F64 × Nat) :=
    let n := commonPrefixLenIgnoreCase t "infinity".data
    let n := if 3 < n ∧ n < 8 then 3 else n
    if n = 3 ∨ n = 8 then some (F64.inf neg, nsign + n) else none
  match s with
  | [] => none
  | c :: t =>
    if c = '+' then infCase false 1 t
    else if c = '-' then infCase true 1 t
    else if c = 'i' ∨ c = 'I' then infCase false 0 s
    else if c = 'n' ∨ c = 'N' then
      if commonPrefixLenIgnoreCase s "nan".data = 3 then some (F64.nan, 3) else none
    else none

/-- Value of a hexadecimal digit, if `c` is one. -/
def hexVal (c : Char) : Option Nat :=
  if c.isDigit then some (c.toNat - 48)
  else if 'a' ≤ c ∧ c ≤ 'f' then some (c.toNat - 87)
  else if 'A' ≤ c ∧ c ≤ 'F' then some (c.toNat - 55)
  else none

/-- Mantissa loop of Go `readFloat`: skips underscores, accepts one point,
accumulates the digits (all of them: the value is kept exact) and counts the
digits after the point.  Returns `(sawdigits, mantissa, fraction digits, rest)`. -/
def readMantissa (hex : Bool) :
    List Char → Bool → Bool → Nat → Nat → Bool × Nat × Nat × List Char
  | [], _, sawdigits, mant, frac => (sawdigits, mant, frac, [])
  | c :: cs, sawdot, sawdigits, mant, frac =>
    if c = '_' then readMantissa hex cs sawdot sawdigits mant frac
    else if c = '.' then
      if sawdot then (sawdigits, mant, frac, c :: cs)
      else readMantissa hex cs true sawdigits mant frac
    else if c.isDigit then
      readMantissa hex cs sawdot true (mant * (if hex then 16 else 10) + (c.toNat - 48))
        (if sawdot then frac + 1 else frac)
    else
      match (if hex then hexVal c else none) with
      | some d => readMantissa hex cs sawdot true (mant * 16 + d) (if sawdot then frac + 1 else frac)
      | none => (sawdigits, mant, frac, c :: cs)

/-- Exponent digit loop of Go `readFloat`: digits and underscores; the
exponent stops growing once it has reached 10000. -/
def readExpDigits : List Char → Nat → Nat × List Char
  | [], e => (e, [])
  | c :: cs, e =>
    if c.isDigit then readExpDigits cs (if e < 10000 then e * 10 + (c.toNat - 48) else e)
    else if c = '_' then readExpDigits cs e
    else (e, c :: cs)

/-- Go `underscoreOK`, after the optional sign has been removed and with `saw`
the class of the last byte seen (`0` digit or base prefix, `1` underscore,
`2` start of number, `3` anything else). -/
def underscoreScan (hex : Bool) : List Char → Nat → Bool
  | [], saw => saw != 1
  | c :: cs, saw =>
    if c.isDigit ∨ (hex ∧ (hexVal c).isSome) then underscoreScan hex cs 0
    else if c = '_' then (if saw != 0 then false else underscoreScan hex cs 1)
    else if saw = 1 then false
    else underscoreScan hex cs 3

/-- Go `underscoreOK`: an underscore may stand only between digits, or between
a base prefix and a digit. -/
def underscoreOK (s : List Char) : Bool :=
  let s1 := match s with
    | '+' :: t => t
    | '-' :: t => t
    | _ => s
  match s1 with
  | '0' :: x :: t =>
    if x = 'b' ∨ x = 'B' ∨ x = 'o' ∨ x = 'O' ∨ x = 'x' ∨ x = 'X' then
      underscoreScan (x = 'x' ∨ x = 'X') t 0
    else underscoreScan false s1 2
  | _ => underscoreScan false s1 2

/-- What Go `readFloat` extracts from a string it consumes entirely: the
number is `± mant * base ^ ...` with `frac` mantissa digits after the point
and the written exponent `exp` (decimal for base 10, binary for base 16). -/
structure Scan where
  neg : Bool
  hex : Bool
  mant : Nat
  frac : Nat
  exp : Int
  deriving DecidableEq, Repr

/-- Go `readFloat`, for the case the caller needs: the whole of `s` is a
well-formed number (`ok` and `n == len(s)`).  `none` otherwise. -/
def readFloat (s : List Char) : Option Scan :=
  let signed : Bool × List Char := match s with
    | '+' :: t => (false, t)
    | '-' :: t => (true, t)
    | _ => (false, s)
  let based : Bool × List Char := match signed.2 with
    | '0' :: x :: c :: t => if x = 'x' ∨ x = 'X' then (true, c :: t) else (false, signed.2)
    | _ => (false, signed.2)
  let hex := based.1
  match readMantissa hex based.2 false false 0 0 with
  | (false, _, _, _) => none
  | (true, mant, frac, rest) =>
    let finish (e : Int) (rest1 : List Char) : Option Scan :=
      if rest1.isEmpty ∧ underscoreOK s then some ⟨signed.1, hex, mant, frac, e⟩ else none
    match rest with
    | [] => if hex then none else finish 0 []
    | c :: cs =>
      if (hex ∧ (c = 'p' ∨ c = 'P')) ∨ (¬ hex ∧ (c = 'e' ∨ c = 'E')) then
        let esigned : Bool × List Char := match cs with
          | '+' :: t => (false, t)
          | '-' :: t => (true, t)
          | _ => (false, cs)
        match esigned.2 with
        | [] => none
        | d :: ds =>
          if d.isDigit then
            let r := readExpDigits (d :: ds) 0
            finish (if esigned.1 then -(r.1 : Int) else (r.1 : Int)) r.2
          else none
      else none

/-- Nearest integer to `a / b`, ties to even (`b > 0`). -/
def roundHalfEven (a b : Nat) : Nat :=
  let q := a / b
  let r := a % b
  if 2 * r < b then q
  else if b < 2 * r then q + 1
  else if q % 2 = 0 then q else q + 1

/-- Halving loop behind `log2`. -/
def log2Aux : Nat → Nat → Nat
  | 0, _ => 0
  | fuel + 1, n => if n < 2 then 0 else log2Aux fuel (n / 2) + 1

/-- Floor of the binary logarithm (`0` for `0`): one less than the bit length. -/
def log2 (n : Nat) : Nat := log2Aux n n

/-- Binary exponent `e` of the float64 nearest to `a / b` (`a, b > 0`):
the greatest `e ≥ -1074` with `a / b < 2 ^ (e + 53)`, so that the mantissa
`a / (b * 2 ^ e)` has at most 53 bits. -/
def binExp (a b : Nat) : Int :=
  let k0 : Int := (log2 a : Int) - (log2 b : Int)
  let ge : Bool := if 0 ≤ k0 then b * 2 ^ k0.toNat ≤ a else b ≤ a * 2 ^ (-k0).toNat
  let k : Int := if ge then k0 else k0 - 1
  max (k - 52) (-1074)

/-- IEEE 754 round-to-nearest-even of the positive rational `a / b` to a
float64 `m * 2 ^ e` with `m ≤ 2 ^ 53`; `none` when the result overflows
(`m * 2 ^ e ≥ 2 ^ 1024`, that is `e > 971`, or `e = 971` and `m = 2 ^ 53`). -/
def roundF64 (a b : Nat) : Option (Nat × Int) :=
  if a = 0 then some (0, 0)
  else
    let e := binExp a b
    let m := if 0 ≤ e then roundHalfEven a (b * 2 ^ e.toNat) else roundHalfEven (a * 2 ^ (-e).toNat) b
    if 971 < e ∨ (e = 971 ∧ 2 ^ 53 ≤ m) then none
    else some (m, e)

/-- Exact value `a / b` of what `readFloat` read. -/
def Scan.ratio (sc : Scan) : Nat × Nat :=
  let x : Int := if sc.hex then sc.exp - 4 * (sc.frac : Int) else sc.exp - (sc.frac : Int)
  let base : Nat := if sc.hex then 2 else 10
  if 0 ≤ x then (sc.mant * base ^ x.toNat, 1) else (sc.mant, base ^ (-x).toNat)

/-- Model of `strconv.ParseFloat(s, 64)`: the special values, else the
correctly rounded float64 of the decimal or hexadecimal number; `none` stands
for a non-nil error (syntax error, or range error on overflow). -/
def parseFloat (s : List Char) : Option F64 :=
  match special s with
  | some (f, n) => if n = s.length then some f else none
  | none =>
    match readFloat s with
    | none => none
    | some sc =>
      match roundF64 sc.ratio.1 sc.ratio.2 with
      | none => none
      | some (m, e) => some (F64.finite sc.neg m e)

/-! ## The environment of the program -/

/-- What the program takes from the machine it runs on. -/
structure Platform where
  /-- The text of `time.Unix(t, 0).Format("2006-01-02 15:04:05")`, which
  depends on the local time zone of the process. -/
  formatTime : Int → String
  /-- The result of `int64(f)` when `f` is NaN, infinite, or truncates to a
  value outside the int64 range: Go leaves it implementation-dependent. -/
  int64OutOfRange : F64 → Int

/-- Reduction of an integer to the int64 range (two's complement). -/
def wrapInt64 (x : Int) : Int := (x + 2 ^ 63) % 2 ^ 64 - 2 ^ 63

/-- Go conversion `int64(f)` of a float64: truncation toward zero when the
result is representable. -/
def toInt64 (p : Platform) (f : F64) : Int :=
  match f with
  | F64.finite neg m e =>
    let t : Nat := if 0 ≤ e then m * 2 ^ e.toNat else m / 2 ^ (-e).toNat
    let v : Int := if neg then -(t : Int) else (t : Int)
    if -(2 ^ 63) ≤ v ∧ v < 2 ^ 63 then v else wrapInt64 (p.int64OutOfRange f)
  | _ => wrapInt64 (p.int64OutOfRange f)

/-! ## Decoded JSON -/

/-- A value produced by `encoding/json` when decoding into `interface{}`:
`nil`, `bool`, `float64` (its value is never read by the program), `string`,
`[]interface{}` or `map[string]interface{}`. -/
inductive Json where
  | null
  | bool (b : Bool)
  | num
  | str (s : String)
  | arr (xs : List Json)
  | obj (kvs : List (String × Json))

/-- Map index `m[key]`: `none` is the nil interface of an absent key.  (A
decoded map is represented by a list of its entries, read at the first entry
of the key.) -/
def index (m : List (String × Json)) (key : String) : Option Json := m.lookup key

/-- What `http.Get` and `decoder.Decode(&result)` give one call of `fetchData`. -/
inductive Response where
  | getError
  | decodeError
  | decoded (result : List (String × Json))

/-! ## `fetchData` -/

/-- The two package variables (main.go:32-33). -/
structure Globals where
  previousFirstRow : Int
  minValueToDisplay : Int
  deriving DecidableEq, Repr

/-- How a call of `fetchData` ends: `(text, nil)`, `("", err)`, or a run-time
panic (an explicit `panic(err)`, a failed type assertion, an index out of
range). -/
inductive Outcome where
  | ok (text : String)
  | error
  | panic
  deriving DecidableEq, Repr

/-- How one iteration of the loop over `deals` ends. -/
inductive Step where
  | panic
  | stop
  | next (formattedDeal : Option String)
  deriving DecidableEq, Repr

/-- The value expression of main.go:188-192:
`int64(ParseFloat(strings.Replace(v, ",", "", -1), 64))`; `none` when
`ParseFloat` returns an error. -/
def parseValue (p : Platform) (v : String) : Option Int :=
  (parseFloat (removeCommas v.data)).map (toInt64 p)

/-- The `fmt.Sprintf("%s %s\t $ %s\n%s", ...)` of main.go:212-221 with the
choice of the emoji. -/
def formatDeal (p : Platform) (side : String) (value itimestamp : Int) : String :=
  let timestamp := p.formatTime itimestamp
  let emoji := if side = "Sell" then "❌" else if side = "Buy" then "✅" else ""
  emoji ++ " " ++ side ++ "\t $ " ++ String.mk (addCommas (formatInt value)) ++ "\n" ++ timestamp

/-- Type assertion `x.(string)` on a map element: `none` is the run-time
panic of a failed assertion (absent key or a value that is not a string). -/
def asString : Option Json → Option String
  | some (Json.str s) => some s
  | _ => none

/-- Body of the loop over `deals` (main.go:186-227) for one element. -/
def dealStep (p : Platform) (firstElem minValueToDisplay : Int) (deal : Json) : Step :=
  match deal with
  | Json.obj dealMap =>
    match asString (index dealMap "value") with
    | none => Step.panic
    | some v =>
      match parseValue p v with
      | none => Step.panic
      | some value =>
        match asString (index dealMap "timestamp") with
        | none => Step.panic
        | some ts =>
          match parseInt ts.data with
          | none => Step.panic
          | some itimestamp =>
            if firstElem = itimestamp then Step.stop
            else
              match asString (index dealMap "side") with
              | none => Step.panic
              | some side =>
                if value > minValueToDisplay then
                  Step.next (some (formatDeal p side value itimestamp))
                else Step.next none
  | _ => Step.next none

/-- The loop over `deals` (main.go:184-228): `none` is a panic, otherwise the
final `formattedDeals`. -/
def dealsLoop (p : Platform) (firstElem minValueToDisplay : Int) :
    List Json → List String → Option (List String)
  | [], formattedDeals => some formattedDeals
  | deal :: rest, formattedDeals =>
    match dealStep p firstElem minValueToDisplay deal with
    | Step.panic => none
    | Step.stop => some formattedDeals
    | Step.next none => dealsLoop p firstElem minValueToDisplay rest formattedDeals
    | Step.next (some d) =>
      dealsLoop p firstElem minValueToDisplay rest (formattedDeals ++ [d])

/-- The update of `previousFirstRow` from `deals[0]` (main.go:230-237):
`none` is a panic (index out of range on an empty list, failed assertion, or
`panic(err)`), otherwise the value of the variable afterwards. -/
def updateFirstRow (previousFirstRow : Int) : List Json → Option Int
  | [] => none
  | Json.obj dealMap :: _ =>
    match asString (index dealMap "timestamp") with
    | none => none
    | some ts => parseInt ts.data
  | _ :: _ => some previousFirstRow

/-- The part of `fetchData` after the list has been extracted
(main.go:181-242). -/
def processDeals (p : Platform) (deals : List Json) (g : Globals) : Outcome × Globals :=
  let firstElem := g.previousFirstRow
  match dealsLoop p firstElem g.minValueToDisplay deals [] with
  | none => (Outcome.panic, g)
  | some formattedDeals =>
    match updateFirstRow g.previousFirstRow deals with
    | none => (Outcome.panic, g)
    | some itimestamp =>
      (Outcome.ok (String.intercalate "\n" formattedDeals),
        { g with previousFirstRow := itimestamp })

/-- The extraction `result["result"].(map[string]interface{})["list"].([]interface{})`
(main.go:176): `none` is the panic of the first assertion, `some none` the
`!ok` of the second. -/
def extractDeals (result : List (String × Json)) : Option (Option (List Json)) :=
  match index result "result" with
  | some (Json.obj r) =>
    match index r "list" with
    | some (Json.arr deals) => some (some deals)
    | _ => some none
  | _ => none

/-- Source `fetchData` (main.go:155-243): the outcome of the call and the
package variables after it. -/
def fetchData (p : Platform) (resp : Response) (g : Globals) : Outcome × Globals :=
  match resp with
  | Response.getError => (Outcome.error, g)
  | Response.decodeError => (Outcome.error, g)
  | Response.decoded result =>
    match extractDeals result with
    | none => (Outcome.panic, g)
    | some none => (Outcome.ok "No data found", g)
    | some (some deals) => processDeals p deals g

/-! ## The update loop of `main` -/

/-- Whether the process is still handling updates: `blocked` is the main loop
waiting forever on `done <- true` with no polling goroutine to receive it,
`crashed` is the process after a panic. -/
inductive Status where
  | running
  | blocked
  | crashed
  deriving DecidableEq, Repr

/-- The state of the process as far as `main` uses it: the package variables,
the calls of `bot.Send` so far (chat id and text, oldest first), the number
of polling goroutines that have been started and have not returned, and
whether `fetchTicker.Stop()` has been called. -/
structure Bot where
  globals : Globals
  sent : List (Int × String)
  loops : Nat
  tickerStopped : Bool
  status : Status
  deriving DecidableEq, Repr

/-- The process as `main` starts handling updates (main.go:32-33, 44-46). -/
def Bot.init : Bot := ⟨⟨0, 500000⟩, [], 0, false, Status.running⟩

/-- One `bot.Send(tgbotapi.NewMessage(chat, text))`. -/
def Bot.send (b : Bot) (chat : Int) (text : String) : Bot :=
  { b with sent := b.sent ++ [(chat, text)] }

/-- The block `data, err := fetchData(); if err != nil { ...; continue };
if len(data) != 0 { bot.Send(...) }` (main.go:70-81, repeated at 91-102 and
129-140).  The flag tells whether control goes on after the block (it does
not after `continue`, nor after a panic). -/
def pollBlock (p : Platform) (chat : Int) (resp : Response) (b : Bot) : Bot × Bool :=
  match fetchData p resp b.globals with
  | (Outcome.ok data, g) =>
    let b1 := { b with globals := g }
    (if data.length ≠ 0 then b1.send chat data else b1, true)
  | (Outcome.error, g) => ({ b with globals := g }, false)
  | (Outcome.panic, g) => ({ b with globals := g, status := Status.crashed }, false)

/-- What the process reacts to: an update carrying a message (with the feed's
answer in case the handler polls), or the ticker firing in a polling goroutine
that sends to `chat` (with the feed's answer).  Which goroutine, if several
are alive, receives a tick is not tracked. -/
inductive Event where
  | update (chat : Int) (text : String) (resp : Response)
  | tick (chat : Int) (resp : Response)

/-- The text of the "set" command before the number (main.go:118-119). -/
def setCommand : String := "Set minimum displayed value $"

/-- Body of the loop `for update := range updates` for one update with a
message (main.go:57-144). -/
def handleUpdate (p : Platform) (chat : Int) (text : String) (resp : Response) (b : Bot) : Bot :=
  if text = "Subscribe" then
    let r := pollBlock p chat resp (b.send chat "Bot started.")
    if r.2 then { r.1 with loops := r.1.loops + 1 } else r.1
  else if text = "Unsubscribe" then
    let b1 := { b with tickerStopped := true }
    if b1.loops = 0 then { b1 with status := Status.blocked }
    else ({ b1 with loops := b1.loops - 1 }).send chat "Bot stopped."
  else if "Show minimum displayed value $".data.isPrefixOf text.data then
    b.send chat ("Current minimum value: $ " ++ String.mk (formatInt b.globals.minValueToDisplay))
  else if text = setCommand then
    b.send chat "Enter the new minimum value:"
  else if setCommand.data.isPrefixOf text.data then
    match parseInt (text.data.drop setCommand.length) with
    | none => b.send chat "Invalid input. Please enter a valid number."
    | some newValue =>
      let b1 := { b with globals := { b.globals with minValueToDisplay := newValue } }
      (pollBlock p chat resp
        (b1.send chat ("Minimum value set to: $ " ++ String.mk (formatInt newValue)))).1
  else b

/-- One step of the process.  Handlers and poll cycles are taken as atomic and
in the order of the events; a tick is served only while a polling goroutine
is alive and the ticker has not been stopped. -/
def step (p : Platform) (b : Bot) (ev : Event) : Bot :=
  match b.status, ev with
  | Status.running, Event.update chat text resp => handleUpdate p chat text resp b
  | Status.running, Event.tick chat resp =>
    if 0 < b.loops ∧ b.tickerStopped = false then (pollBlock p chat resp b).1 else b
  | _, _ => b

/-- The process after a sequence of events, from the start of `main`. -/
def run (p : Platform) (evs : List Event) : Bot := evs.foldl (step p) Bot.init

/-! ## Events of a batch, and what a cycle is to produce -/

/-- A well-formed feed item as the cycle reads it: the side, the value
converted to int64 and the timestamp. (The symbol is not read.) -/
structure Deal where
  side : String
  value : Int
  timestamp : Int
  deriving DecidableEq, Repr

/-- Reading of one list item as a well-formed event: an object whose `value`,
`timestamp` and `side` are strings, the first parsable by `ParseFloat` once
the commas are removed, the second by `ParseInt`. -/
def decodeDeal (p : Platform) : Json → Option Deal
  | Json.obj dealMap =>
    (asString (index dealMap "value")).bind fun v =>
    (parseValue p v).bind fun value =>
    (asString (index dealMap "timestamp")).bind fun ts =>
    (parseInt ts.data).bind fun itimestamp =>
    (asString (index dealMap "side")).map fun side => ⟨side, value, itimestamp⟩
  | _ => none

/-- The batch `deals` consists of the well-formed events `evs`, in order. -/
def Decodes (p : Platform) (deals : List Json) (evs : List Deal) : Prop :=
  deals.map (decodeDeal p) = evs.map some

instance (p : Platform) (deals : List Json) (evs : List Deal) : Decidable (Decodes p deals evs) :=
  inferInstanceAs (Decidable (deals.map (decodeDeal p) = evs.map some))

/-- The least index of `evs` whose timestamp equals the watermark `w`
(`evs.length` when there is none). -/
def boundary (w : Int) (evs : List Deal) : Nat :=
  evs.findIdx fun e => e.timestamp = w

/-- The events a cycle is to report: those before the boundary whose value
exceeds the threshold, in batch order. -/
def survivors (w t : Int) (evs : List Deal) : List Deal :=
  (evs.take (boundary w evs)).filter fun e => e.value > t

/-- The texts of the events `evs`, in order, joined by a newline. -/
def report (p : Platform) (evs : List Deal) : String :=
  String.intercalate "\n" (evs.map fun e => formatDeal p e.side e.value e.timestamp)

/-- The decoded envelope `{ret_code, ret_msg, result: {list: deals}}`. -/
def envelope (deals : List Json) : List (String × Json) :=
  [("ret_code", Json.num), ("ret_msg", Json.str "OK"),
    ("result", Json.obj [("list", Json.arr deals)])]

/-- The response whose `result.list` is `deals`. -/
def feed (deals : List Json) : Response := Response.decoded (envelope deals)

/-- A feed item with the four string fields of the upstream response. -/
def item (value side timestamp : String) : Json :=
  Json.obj [("symbol", Json.str "BTCUSDT"), ("side", Json.str side),
    ("timestamp", Json.str timestamp), ("value", Json.str value)]

/-! ## A sample platform -/

/-- Decimal rendering of `n` on at least `w` digits. -/
def padded (w n : Nat) : List Char :=
  let ds := formatUint n
  List.replicate (w - ds.length) '0' ++ ds

/-- The rendering `2006-01-02 15:04:05` of a Unix time in UTC (proleptic
Gregorian calendar, years 0 to 9999). -/
def formatTimeUTC (t : Int) : String :=
  let days := t / 86400
  let secs := (t % 86400).toNat
  let z := days + 719468
  let era := z / 146097
  let doe := (z - era * 146097).toNat
  let yoe := (doe - doe / 1460 + doe / 36524 - doe / 146096) / 365
  let doy := doe - (365 * yoe + yoe / 4 - yoe / 100)
  let mp := (5 * doy + 2) / 153
  let d := doy - (153 * mp + 2) / 5 + 1
  let m := if mp < 10 then mp + 3 else mp - 9
  let y := ((yoe : Int) + era * 400 + (if m ≤ 2 then 1 else 0)).toNat
  String.mk (padded 4 y ++ '-' :: padded 2 m ++ '-' :: padded 2 d ++ ' ' ::
    padded 2 (secs / 3600) ++ ':' :: padded 2 (secs % 3600 / 60) ++ ':' :: padded 2 (secs % 60))

/-- A machine whose local zone is UTC and whose out-of-range conversions give
the least int64 (the amd64 result). -/
def utc : Platform := ⟨formatTimeUTC, fun _ => -(2 ^ 63)⟩

/-! ## The shape of a grouped rendering -/

/-- Groups after the first: each one is a comma followed by exactly three
digits. -/
def groupsOK : List Char → Bool
  | [] => true
  | ',' :: a :: b :: c :: rest => a.isDigit && b.isDigit && c.isDigit && groupsOK rest
  | _ => false

/-- A first group of one to three digits (`k` of them already read), then
groups of a comma and three digits. -/
def firstGroup : Nat → List Char → Bool
  | k, [] => decide (1 ≤ k)
  | k, c :: rest =>
    if c.isDigit then decide (k < 3) && firstGroup (k + 1) rest
    else decide (1 ≤ k) && groupsOK (c :: rest)

/-- The shape of a grouped rendering: an optional leading `-`, a first group
of 1 to 3 digits, then zero or more groups of `,` and exactly 3 digits. -/
def wellGrouped (s : List Char) : Bool :=
  match s with
  | '-' :: t => firstGroup 0 t
  | _ => firstGroup 0 s

/-! ## Lemmas on the integer renderings and on `addCommas` -/

/-- Decimal digits of a number, most significant first (reference rendering
used in the proofs about `formatUint`). -/
def decDigits (n : Nat) : List Char :=
  if n < 10 then [digitChar n] else decDigits (n / 10) ++ [digitChar n]
termination_by n
decreasing_by omega

theorem addCommasAux_fuel (fuel1 : Nat) :
    ∀ (fuel2 : Nat) (s : List Char), s.length ≤ fuel1 → s.length ≤ fuel2 →
      addCommasAux fuel1 s = addCommasAux fuel2 s := by
  induction fuel1 with
  | zero =>
    intro fuel2 s h1 _
    have hs : s = [] := List.length_eq_zero.mp (Nat.le_zero.mp h1)
    subst hs
    cases fuel2 <;> simp [addCommasAux]
  | succ n ih =>
    intro fuel2 s h1 h2
    cases fuel2 with
    | zero =>
      have hs : s = [] := List.length_eq_zero.mp (Nat.le_zero.mp h2)
      subst hs
      simp [addCommasAux]
    | succ m =>
      simp only [addCommasAux]
      by_cases h3 : s.length ≤ 3
      · simp [h3]
      · simp only [h3, if_false]
        have hlen : (s.take (s.length - 3)).length = s.length - 3 := by
          rw [List.length_take]; omega
        rw [ih m (s.take (s.length - 3)) (by rw [hlen]; omega) (by rw [hlen]; omega)]

/-- The recursion equation of the source `addCommas`. -/
theorem addCommas_unfold (s : List Char) :
    addCommas s =
      if s.length ≤ 3 then s
      else addCommas (s.take (s.length - 3)) ++ ',' :: s.drop (s.length - 3) := by
  unfold addCommas
  cases hs : s.length with
  | zero => simp [addCommasAux]
  | succ n =>
    simp only [addCommasAux, hs]
    by_cases h3 : n + 1 ≤ 3
    · simp [h3]
    · simp only [h3, if_false]
      have hlen : (s.take (n + 1 - 3)).length = n + 1 - 3 := by
        rw [List.length_take, hs]; omega
      rw [addCommasAux_fuel n (s.take (n + 1 - 3)).length (s.take (n + 1 - 3))
        (by rw [hlen]; omega) (le_refl _)]

theorem removeCommas_addCommas_aux (n : Nat) :
    ∀ s : List Char, s.length ≤ n → (∀ c ∈ s, c ≠ ',') → removeCommas (addCommas s) = s := by
  induction n with
  | zero =>
    intro s h _
    have hs : s = [] := List.length_eq_zero.mp (Nat.le_zero.mp h)
    subst hs
    rw [addCommas_unfold]
    simp [removeCommas]
  | succ n ih =>
    intro s h hc
    rw [addCommas_unfold]
    by_cases h3 : s.length ≤ 3
    · simp only [h3, if_true]
      unfold removeCommas
      rw [List.filter_eq_self]
      intro c hmem
      simpa using hc c hmem
    · simp only [h3, if_false]
      have hlen : (s.take (s.length - 3)).length ≤ n := by
        rw [List.length_take]; omega
      have htake : ∀ c ∈ s.take (s.length - 3), c ≠ ',' :=
        fun c hmem => hc c (List.mem_of_mem_take hmem)
      have hdrop : ∀ c ∈ s.drop (s.length - 3), c ≠ ',' :=
        fun c hmem => hc c (List.mem_of_mem_drop hmem)
      have h1 := ih _ hlen htake
      have h2 : removeCommas (s.drop (s.length - 3)) = s.drop (s.length - 3) := by
        unfold removeCommas
        rw [List.filter_eq_self]
        intro c hmem
        simpa using hdrop c hmem
      unfold removeCommas at h1 h2 ⊢
      rw [List.filter_append, List.filter_cons, h1, h2]
      simp

/-- Removing the commas undoes `addCommas` on a string without commas. -/
theorem removeCommas_addCommas (s : List Char) (hc : ∀ c ∈ s, c ≠ ',') :
    removeCommas (addCommas s) = s :=
  removeCommas_addCommas_aux s.length s (le_refl _) hc

theorem digitChar_isDigit (d : Nat) : (digitChar d).isDigit = true := by
  have h : d % 10 < 10 := Nat.mod_lt _ (by decide)
  unfold digitChar
  generalize d % 10 = r at h
  interval_cases r <;> decide

theorem digitVal_digitChar (d : Nat) : digitVal (digitChar d) = d % 10 := by
  have h : d % 10 < 10 := Nat.mod_lt _ (by decide)
  unfold digitChar
  generalize d % 10 = r at h
  interval_cases r <;> decide

theorem formatBits_eq (fuel : Nat) :
    ∀ (u : Nat) (acc : List Char), u < fuel → formatBits fuel u acc = decDigits u ++ acc := by
  induction fuel with
  | zero => intro u acc h; omega
  | succ n ih =>
    intro u acc h
    simp only [formatBits]
    by_cases h0 : u / 10 = 0
    · have hu : u < 10 := by omega
      rw [decDigits]
      simp [h0, hu]
    · have hu : ¬ u < 10 := by omega
      simp only [h0, if_false]
      rw [ih (u / 10) _ (by omega)]
      conv_rhs => rw [decDigits]
      simp [hu]

theorem formatUint_eq (u : Nat) : formatUint u = decDigits u := by
  unfold formatUint
  rw [formatBits_eq (u + 1) u [] (by omega)]
  simp

theorem decDigits_isDigit (n : Nat) : ∀ c ∈ decDigits n, c.isDigit = true := by
  induction n using Nat.strong_induction_on with
  | _ n ih =>
    intro c hc
    rw [decDigits] at hc
    by_cases hn : n < 10
    · simp only [hn, if_true, List.mem_singleton] at hc
      rw [hc]; exact digitChar_isDigit n
    · simp only [hn, if_false, List.mem_append, List.mem_singleton] at hc
      rcases hc with hc | hc
      · exact ih (n / 10) (by omega) c hc
      · rw [hc]; exact digitChar_isDigit n

theorem parseDigits_append (xs : List Char) :
    ∀ (ys : List Char) (k : Nat),
      parseDigits (xs ++ ys) k = (parseDigits xs k).bind fun a => parseDigits ys a := by
  induction xs with
  | nil => intro ys k; simp [parseDigits]
  | cons x xs ih =>
    intro ys k
    simp only [List.cons_append, parseDigits]
    by_cases hx : x.isDigit = true
    · simp [hx, ih]
    · simp [hx]

theorem parseDigits_decDigits (n : Nat) :
    ∃ m : Nat, ∀ k : Nat, parseDigits (decDigits n) k = some (k * m + n) := by
  induction n using Nat.strong_induction_on with
  | _ n ih =>
    by_cases hn : n < 10
    · refine ⟨10, fun k => ?_⟩
      rw [decDigits]
      simp only [hn, if_true, parseDigits, digitChar_isDigit, digitVal_digitChar]
      congr 2
      omega
    · obtain ⟨m, hm⟩ := ih (n / 10) (by omega)
      refine ⟨m * 10, fun k => ?_⟩
      rw [decDigits]
      simp only [hn, if_false, parseDigits_append, hm, Option.some_bind, parseDigits,
        digitChar_isDigit, digitVal_digitChar, if_true]
      congr 1
      have := Nat.div_add_mod n 10
      nlinarith

theorem decDigits_ne_nil (n : Nat) : decDigits n ≠ [] := by
  rw [decDigits]
  by_cases hn : n < 10 <;> simp [hn]

theorem parseUint_formatUint (n : Nat) : parseUint (formatUint n) = some n := by
  rw [formatUint_eq]
  obtain ⟨m, hm⟩ := parseDigits_decDigits n
  have h := hm 0
  unfold parseUint
  split
  · next heq => exact absurd heq (decDigits_ne_nil n)
  · simpa using h

theorem parseInt_formatUint (n : Nat) :
    parseInt (formatUint n) = if n < 2 ^ 63 then some (n : Int) else none := by
  have hu := parseUint_formatUint n
  have hdig : ∀ c ∈ formatUint n, c.isDigit = true := by
    rw [formatUint_eq]; exact decDigits_isDigit n
  unfold parseInt
  split
  · next heq => rw [heq] at hu; simp [parseUint] at hu
  · next t heq =>
    have := hdig '+' (by rw [heq]; exact List.mem_cons_self _ _)
    exact absurd this (by decide)
  · next t heq =>
    have := hdig '-' (by rw [heq]; exact List.mem_cons_self _ _)
    exact absurd this (by decide)
  · rw [hu]
    simp

theorem groupsOK_append (xs : List Char) :
    ∀ ys : List Char, groupsOK xs = true → groupsOK ys = true → groupsOK (xs ++ ys) = true := by
  induction xs using groupsOK.induct with
  | case1 => intro ys _ h; simpa using h
  | case2 a b c rest ih =>
    intro ys hx hy
    simp only [groupsOK, Bool.and_eq_true] at hx
    simp only [List.cons_append, groupsOK, Bool.and_eq_true]
    exact ⟨hx.1, ih ys hx.2 hy⟩
  | case3 xs h1 h2 =>
    intro ys hx _
    unfold groupsOK at hx
    split at hx
    · exact absurd rfl h1
    · next a b c rest => exact absurd rfl (h2 a b c rest)
    · exact absurd hx (by decide)

theorem firstGroup_of_groups (k : Nat) (hk : 1 ≤ k) (gs : List Char) (h : groupsOK gs = true) :
    firstGroup k gs = true := by
  cases gs with
  | nil => simp [firstGroup, hk]
  | cons c rest =>
    have hc : c = ',' := by
      unfold groupsOK at h
      split at h
      · next heq => cases heq
      · next a b c rest heq => cases heq; rfl
      · exact absurd h (by decide)
    subst hc
    have hnd : ¬ (','.isDigit = true) := by decide
    simp [firstGroup, hnd, hk, h]

theorem firstGroup_digits (first : List Char) :
    ∀ (k : Nat) (gs : List Char), (∀ c ∈ first, c.isDigit = true) → k + first.length ≤ 3 →
      1 ≤ k + first.length → groupsOK gs = true → firstGroup k (first ++ gs) = true := by
  induction first with
  | nil =>
    intro k gs _ _ h1 hg
    exact firstGroup_of_groups k (by simpa using h1) gs hg
  | cons c cs ih =>
    intro k gs hd h3 _ hg
    have hc : c.isDigit = true := hd c (List.mem_cons_self _ _)
    have hcs : ∀ x ∈ cs, x.isDigit = true := fun x hx => hd x (List.mem_cons_of_mem _ hx)
    simp only [List.length_cons] at h3
    simp only [List.cons_append, firstGroup, hc, if_true, Bool.and_eq_true, decide_eq_true_eq]
    exact ⟨by omega, ih (k + 1) gs hcs (by omega) (by omega) hg⟩

theorem addCommas_digits_shape (n : Nat) :
    ∀ s : List Char, s.length ≤ n → s ≠ [] → (∀ c ∈ s, c.isDigit = true) →
      ∃ first gs, addCommas s = first ++ gs ∧ 1 ≤ first.length ∧ first.length ≤ 3 ∧
        (∀ c ∈ first, c.isDigit = true) ∧ groupsOK gs = true := by
  induction n with
  | zero =>
    intro s h hne _
    exact absurd (List.length_eq_zero.mp (Nat.le_zero.mp h)) hne
  | succ n ih =>
    intro s h hne hd
    rw [addCommas_unfold]
    have hpos : 0 < s.length := List.length_pos.mpr hne
    by_cases h3 : s.length ≤ 3
    · simp only [h3, if_true]
      exact ⟨s, [], by simp, hpos, h3, hd, rfl⟩
    · simp only [h3, if_false]
      have hlen : (s.take (s.length - 3)).length = s.length - 3 := by
        rw [List.length_take]; omega
      have htne : s.take (s.length - 3) ≠ [] := by
        intro hnil
        rw [hnil] at hlen
        simp at hlen
        omega
      obtain ⟨first, gs, heq, h1, h2, hfd, hg⟩ := ih (s.take (s.length - 3)) (by omega) htne
        (fun c hc => hd c (List.mem_of_mem_take hc))
      have hdl : (s.drop (s.length - 3)).length = 3 := by
        rw [List.length_drop]; omega
      obtain ⟨a, b, c, habc⟩ : ∃ a b c, s.drop (s.length - 3) = [a, b, c] := by
        match hdrop : s.drop (s.length - 3), hdl with
        | [a, b, c], _ => exact ⟨a, b, c, rfl⟩
      have hmem : ∀ x ∈ [a, b, c], x.isDigit = true := by
        intro x hx
        rw [← habc] at hx
        exact hd x (List.mem_of_mem_drop hx)
      have hlast : groupsOK (',' :: [a, b, c]) = true := by
        simp [groupsOK, hmem a (by simp), hmem b (by simp), hmem c (by simp)]
      refine ⟨first, gs ++ ',' :: [a, b, c], ?_, h1, h2, hfd, groupsOK_append gs _ hg hlast⟩
      rw [heq, habc, List.append_assoc]

/-- For a non-negative value the rendering has the grouped shape. -/
theorem wellGrouped_nonneg (n : Nat) : wellGrouped (addCommas (formatInt (n : Int))) = true := by
  have hfmt : formatInt (n : Int) = formatUint n := by
    unfold formatInt
    simp
  have hd : ∀ c ∈ formatUint n, c.isDigit = true := by
    rw [formatUint_eq]; exact decDigits_isDigit n
  have hne : formatUint n ≠ [] := by
    rw [formatUint_eq]; exact decDigits_ne_nil n
  obtain ⟨first, gs, heq, h1, h2, hfd, hg⟩ :=
    addCommas_digits_shape (formatUint n).length (formatUint n) (le_refl _) hne hd
  rw [hfmt, heq]
  have hfg : firstGroup 0 (first ++ gs) = true :=
    firstGroup_digits first 0 gs hfd (by omega) (by omega) hg
  cases first with
  | nil => simp at h1
  | cons c cs =>
    have hc : c.isDigit = true := hfd c (List.mem_cons_self _ _)
    unfold wellGrouped
    split
    · next t heq2 =>
      simp only [List.cons_append, List.cons.injEq] at heq2
      rw [heq2.1] at hc
      exact absurd hc (by decide)
    · exact hfg

theorem log2Aux_spec (fuel : Nat) :
    ∀ n : Nat, 1 ≤ n → n ≤ fuel →
      2 ^ log2Aux fuel n ≤ n ∧ n < 2 ^ (log2Aux fuel n + 1) := by
  induction fuel with
  | zero => intro n h1 h2; omega
  | succ f ih =>
    intro n h1 h2
    simp only [log2Aux]
    by_cases hn : n < 2
    · simp only [hn, if_true]
      omega
    · simp only [hn, if_false]
      obtain ⟨ha, hb⟩ := ih (n / 2) (by omega) (by omega)
      rw [pow_succ, pow_succ]
      rw [pow_succ] at hb
      constructor <;> omega

theorem log2_spec (n : Nat) (h : 1 ≤ n) : 2 ^ log2 n ≤ n ∧ n < 2 ^ (log2 n + 1) :=
  log2Aux_spec n n h (le_refl _)

theorem roundHalfEven_one (a : Nat) : roundHalfEven a 1 = a := by
  simp [roundHalfEven, Nat.mod_one]

theorem roundF64_small (n : Nat) (h0 : 0 < n) (h : n < 2 ^ 53) :
    roundF64 n 1 = some (n * 2 ^ (52 - log2 n), (log2 n : Int) - 52) := by
  obtain ⟨hlo, hhi⟩ := log2_spec n h0
  have hl : log2 n ≤ 52 := by
    by_contra hc
    have h53 : 53 ≤ log2 n := by omega
    have : (2 : Nat) ^ 53 ≤ 2 ^ log2 n := Nat.pow_le_pow_right (by decide) h53
    omega
  have hone : log2 1 = 0 := by decide
  have hbin : binExp n 1 = (log2 n : Int) - 52 := by
    unfold binExp
    simp only [hone, Nat.cast_zero, sub_zero, Int.toNat_ofNat, one_mul]
    have hk : (0 : Int) ≤ (log2 n : Int) := Int.ofNat_nonneg _
    simp only [hk, if_true, hlo, decide_True]
    omega
  unfold roundF64
  have hn0 : ¬ n = 0 := by omega
  simp only [hn0, if_false, hbin]
  by_cases he : (0 : Int) ≤ (log2 n : Int) - 52
  · have h52 : log2 n = 52 := by omega
    simp [h52, roundHalfEven_one]
  · have hneg : (-((log2 n : Int) - 52)).toNat = 52 - log2 n := by omega
    have hnot : ¬ (971 : Int) < (log2 n : Int) - 52 := by omega
    have hnot2 : ¬ ((log2 n : Int) - 52 = 971) := by omega
    simp only [he, if_false, hneg, roundHalfEven_one, hnot, hnot2, false_and, or_self]

theorem toInt64_small (p : Platform) (n : Nat) (h0 : 0 < n) (h : n < 2 ^ 53) :
    toInt64 p (F64.finite false (n * 2 ^ (52 - log2 n)) ((log2 n : Int) - 52)) = (n : Int) := by
  obtain ⟨hlo, _⟩ := log2_spec n h0
  have hl : log2 n ≤ 52 := by
    by_contra hc
    have h53 : 53 ≤ log2 n := by omega
    have : (2 : Nat) ^ 53 ≤ 2 ^ log2 n := Nat.pow_le_pow_right (by decide) h53
    omega
  have hpos : 0 < 2 ^ (52 - log2 n) := Nat.two_pow_pos _
  have hlt : (n : Int) < 2 ^ 63 := by
    have : n < 2 ^ 63 := lt_trans h (by decide)
    exact_mod_cast this
  have hge : -(2 ^ 63 : Int) ≤ (n : Int) := by
    have : (0 : Int) ≤ (n : Int) := Int.ofNat_nonneg _
    have h2 : (0 : Int) ≤ 2 ^ 63 := by positivity
    omega
  unfold toInt64
  by_cases he : (0 : Int) ≤ (log2 n : Int) - 52
  · have h52 : 52 - log2 n = 0 := by omega
    have he0 : ((log2 n : Int) - 52).toNat = 0 := by omega
    simp only [he, if_true, h52, he0, pow_zero, mul_one, Bool.false_eq_true, if_false]
    rw [if_pos ⟨hge, hlt⟩]
  · have hneg : (-((log2 n : Int) - 52)).toNat = 52 - log2 n := by omega
    simp only [he, if_false, hneg, Nat.mul_div_cancel _ hpos, Bool.false_eq_true]
    rw [if_pos ⟨hge, hlt⟩]

theorem digit_not_special (c : Char) (h : c.isDigit = true) :
    c ≠ '+' ∧ c ≠ '-' ∧ c ≠ '_' ∧ c ≠ '.' ∧ c ≠ 'i' ∧ c ≠ 'I' ∧ c ≠ 'n' ∧ c ≠ 'N' ∧
      c ≠ 'x' ∧ c ≠ 'X' ∧ c ≠ 'b' ∧ c ≠ 'B' ∧ c ≠ 'o' ∧ c ≠ 'O' := by
  refine ⟨?_, ?_, ?_, ?_, ?_, ?_, ?_, ?_, ?_, ?_, ?_, ?_, ?_, ?_⟩ <;>
    (intro hc; rw [hc] at h; exact absurd h (by decide))

theorem readMantissa_digits (ds : List Char) :
    ∀ (mant v frac : Nat) (sd : Bool), (∀ c ∈ ds, c.isDigit = true) →
      parseDigits ds mant = some v →
      readMantissa false ds false sd mant frac = (sd || !ds.isEmpty, v, frac, []) := by
  induction ds with
  | nil =>
    intro mant v frac sd _ hp
    simp only [parseDigits, Option.some.injEq] at hp
    simp [readMantissa, hp]
  | cons c cs ih =>
    intro mant v frac sd hd hp
    have hc : c.isDigit = true := hd c (List.mem_cons_self _ _)
    have hcs : ∀ x ∈ cs, x.isDigit = true := fun x hx => hd x (List.mem_cons_of_mem _ hx)
    obtain ⟨_, _, h1, h2, _⟩ := digit_not_special c hc
    simp only [parseDigits, hc, if_true, digitVal] at hp
    simp only [readMantissa, h1, h2, hc, if_true, if_false, Bool.false_eq_true]
    rw [ih _ v frac true hcs hp]
    simp

theorem underscoreScan_digits (ds : List Char) :
    ∀ saw : Nat, (∀ c ∈ ds, c.isDigit = true) → saw ≠ 1 → underscoreScan false ds saw = true := by
  induction ds with
  | nil => intro saw _ h; simp [underscoreScan, h]
  | cons c cs ih =>
    intro saw hd _
    have hc : c.isDigit = true := hd c (List.mem_cons_self _ _)
    have hcs : ∀ x ∈ cs, x.isDigit = true := fun x hx => hd x (List.mem_cons_of_mem _ hx)
    simp only [underscoreScan, hc, true_or, if_true]
    exact ih 0 hcs (by decide)

theorem underscoreOK_digits (ds : List Char) (hd : ∀ c ∈ ds, c.isDigit = true) :
    underscoreOK ds = true := by
  cases ds with
  | nil => decide
  | cons c cs =>
    have hc : c.isDigit = true := hd c (List.mem_cons_self _ _)
    obtain ⟨hp, hm, _⟩ := digit_not_special c hc
    unfold underscoreOK
    have hs : (match c :: cs with
        | '+' :: t => t
        | '-' :: t => t
        | _ => c :: cs) = c :: cs := by
      split
      · next t heq => simp only [List.cons.injEq] at heq; exact absurd heq.1 hp
      · next t heq => simp only [List.cons.injEq] at heq; exact absurd heq.1 hm
      · rfl
    simp only [hs]
    split
    · next x t heq =>
      simp only [List.cons.injEq] at heq
      have hx : x.isDigit = true := hd x (by rw [heq.2]; simp)
      obtain ⟨_, _, _, _, _, _, _, _, h9, h10, h11, h12, h13, h14⟩ := digit_not_special x hx
      simp only [h9, h10, h11, h12, h13, h14, or_self, if_false]
      exact underscoreScan_digits _ 2 hd (by decide)
    · exact underscoreScan_digits _ 2 hd (by decide)

theorem special_digits (c : Char) (cs : List Char) (hc : c.isDigit = true) :
    special (c :: cs) = none := by
  obtain ⟨h1, h2, _, _, h5, h6, h7, h8, _⟩ := digit_not_special c hc
  simp [special, h1, h2, h5, h6, h7, h8]

theorem readFloat_digits (ds : List Char) (n : Nat) (hne : ds ≠ [])
    (hd : ∀ c ∈ ds, c.isDigit = true) (hp : parseDigits ds 0 = some n) :
    readFloat ds = some ⟨false, false, n, 0, 0⟩ := by
  cases ds with
  | nil => exact absurd rfl hne
  | cons c cs =>
    have hc : c.isDigit = true := hd c (List.mem_cons_self _ _)
    obtain ⟨hplus, hminus, _⟩ := digit_not_special c hc
    unfold readFloat
    have hs : (match c :: cs with
        | '+' :: t => (false, t)
        | '-' :: t => (true, t)
        | _ => (false, c :: cs)) = (false, c :: cs) := by
      split
      · next t heq => simp only [List.cons.injEq] at heq; exact absurd heq.1 hplus
      · next t heq => simp only [List.cons.injEq] at heq; exact absurd heq.1 hminus
      · rfl
    simp only [hs]
    have hb : (match c :: cs with
        | '0' :: x :: c1 :: t => if x = 'x' ∨ x = 'X' then (true, c1 :: t) else (false, c :: cs)
        | _ => (false, c :: cs)) = (false, c :: cs) := by
      split
      · next x c1 t heq =>
        simp only [List.cons.injEq] at heq
        have hx : x.isDigit = true := hd x (by rw [heq.2]; simp)
        obtain ⟨_, _, _, _, _, _, _, _, h9, h10, _⟩ := digit_not_special x hx
        simp [h9, h10]
      · rfl
    simp only [hb]
    rw [readMantissa_digits (c :: cs) 0 n 0 false hd hp]
    simp [underscoreOK_digits (c :: cs) hd]

/-- The value expression of `fetchData` reads back the grouped rendering of
every integer `0 ≤ n < 2 ^ 53` exactly (float64 represents these integers). -/
theorem parseValue_grouped (p : Platform) (n : Nat) (h : n < 2 ^ 53) :
    parseValue p (String.mk (addCommas (formatInt (n : Int)))) = some (n : Int) := by
  have hfmt : formatInt (n : Int) = formatUint n := by
    unfold formatInt
    simp
  have hd : ∀ c ∈ formatUint n, c.isDigit = true := by
    rw [formatUint_eq]; exact decDigits_isDigit n
  have hne : formatUint n ≠ [] := by
    rw [formatUint_eq]; exact decDigits_ne_nil n
  have hc : ∀ c ∈ formatUint n, c ≠ ',' := by
    intro c hmem hcomma
    have := hd c hmem
    rw [hcomma] at this
    exact absurd this (by decide)
  have hu : parseDigits (formatUint n) 0 = some n := by
    have := parseUint_formatUint n
    unfold parseUint at this
    split at this
    · exact absurd this (by simp)
    · exact this
  have hrf := readFloat_digits (formatUint n) n hne hd hu
  obtain ⟨c, cs, hcons⟩ := List.exists_cons_of_ne_nil hne
  have hsp : special (formatUint n) = none := by
    rw [hcons]
    exact special_digits c cs (hd c (by rw [hcons]; exact List.mem_cons_self _ _))
  unfold parseValue
  rw [hfmt]
  simp only [removeCommas_addCommas _ hc]
  unfold parseFloat
  simp only [hsp, hrf]
  have hratio : (Scan.mk false false n 0 0).ratio = (n, 1) := by
    simp [Scan.ratio]
  by_cases h0 : n = 0
  · subst h0
    have hr0 : roundF64 0 1 = some (0, 0) := by decide
    have ht0 : toInt64 p (F64.finite false 0 0) = 0 := by
      simp [toInt64]
    simp only [hratio, hr0, Option.map_some', ht0, Nat.cast_zero]
  · have hr := roundF64_small n (by omega) h
    simp only [hratio, hr, Option.map_some', toInt64_small p n (by omega) h]

/-- C7. Grouping round trip: for every non-negative integer `n`, removing
every comma from `addCommas` of the decimal string of `n` gives back that
decimal string, which parses to `n`: digit by digit (as `strconv.ParseUint`
reads it), and by `strconv.ParseInt` whenever `n` is an int64. -/
theorem grouping_round_trip (n : Nat) :
    removeCommas (addCommas (formatInt (n : Int))) = formatInt (n : Int) ∧
      parseUint (removeCommas (addCommas (formatInt (n : Int)))) = some n ∧
      parseInt (removeCommas (addCommas (formatInt (n : Int)))) =
        if n < 2 ^ 63 then some (n : Int) else none := by
  have hfmt : formatInt (n : Int) = formatUint n := by
    unfold formatInt
    simp
  have hc : ∀ c ∈ formatUint n, c ≠ ',' := by
    intro c hmem hcomma
    rw [formatUint_eq] at hmem
    have := decDigits_isDigit n c hmem
    rw [hcomma] at this
    exact absurd this (by decide)
  rw [hfmt, removeCommas_addCommas _ hc]
  exact ⟨rfl, parseUint_formatUint n, parseInt_formatUint n⟩

/-- The witness of C7: 1234567 is rendered `1,234,567`; removing the commas
gives back `1234567`, which parses to 1234567. -/
theorem grouping_round_trip_witness :
    addCommas (formatInt 1234567) = "1,234,567".data ∧
      removeCommas "1,234,567".data = "1234567".data ∧
      parseInt (removeCommas (addCommas (formatInt 1234567))) = some 1234567 :=
  ⟨by decide, by decide, (grouping_round_trip 1234567).2.2.trans (by decide)⟩

/-- C8 (failing input). The rendering of the int64 value -123 used by
`fetchData` is `-,123`, which has not the grouped shape: a separator follows
the sign although the number has only three digits. The same happens for
-123456. -/
theorem grouping_negative_three_digits :
    addCommas (formatInt (-123)) = "-,123".data ∧
      wellGrouped (addCommas (formatInt (-123))) = false ∧
      addCommas (formatInt (-123456)) = "-,123,456".data ∧
      wellGrouped (addCommas (formatInt (-123456))) = false ∧
      (fetchData utc (feed [item "-123" "Sell" "1000"]) ⟨0, -500⟩).1 =
        Outcome.ok "❌ Sell\t $ -,123\n1970-01-01 00:16:40" := by
  decide

/-! ## Lemmas on the poll cycle -/

theorem decodes_nil_left (p : Platform) (evs : List Deal) :
    Decodes p [] evs ↔ evs = [] := by
  unfold Decodes
  cases evs <;> simp

theorem decodes_cons_left (p : Platform) (d : Json) (ds : List Json) (evs : List Deal) :
    Decodes p (d :: ds) evs ↔
      ∃ e es, evs = e :: es ∧ decodeDeal p d = some e ∧ Decodes p ds es := by
  unfold Decodes
  cases evs with
  | nil => simp
  | cons e es =>
    simp only [List.map_cons, List.cons.injEq]
    constructor
    · rintro ⟨h1, h2⟩
      exact ⟨e, es, ⟨rfl, rfl⟩, h1, h2⟩
    · rintro ⟨e1, es1, ⟨rfl, rfl⟩, h1, h2⟩
      exact ⟨h1, h2⟩

theorem decodes_append (p : Platform) (ds1 ds2 : List Json) (es1 es2 : List Deal)
    (h1 : Decodes p ds1 es1) (h2 : Decodes p ds2 es2) : Decodes p (ds1 ++ ds2) (es1 ++ es2) := by
  unfold Decodes at *
  rw [List.map_append, List.map_append, h1, h2]

theorem dealStep_decoded (p : Platform) (w t : Int) (d : Json) (e : Deal)
    (h : decodeDeal p d = some e) :
    dealStep p w t d =
      if w = e.timestamp then Step.stop
      else if e.value > t then Step.next (some (formatDeal p e.side e.value e.timestamp))
      else Step.next none := by
  cases d with
  | obj m =>
    simp only [decodeDeal, Option.bind_eq_some, Option.map_eq_some'] at h
    obtain ⟨v, hv, value, hval, ts, hts, it, hit, side, hside, rfl⟩ := h
    simp only [dealStep, hv, hval, hts, hit, hside]
  | null => simp [decodeDeal] at h
  | bool b => simp [decodeDeal] at h
  | num => simp [decodeDeal] at h
  | str s => simp [decodeDeal] at h
  | arr xs => simp [decodeDeal] at h

theorem survivors_nil (w t : Int) : survivors w t [] = [] := by
  simp [survivors, boundary]

theorem survivors_cons (w t : Int) (e : Deal) (es : List Deal) :
    survivors w t (e :: es) =
      if w = e.timestamp then []
      else (if e.value > t then [e] else []) ++ survivors w t es := by
  unfold survivors boundary
  rw [List.findIdx_cons]
  by_cases hw : w = e.timestamp
  · simp [hw]
  · have hw2 : ¬ e.timestamp = w := fun h => hw h.symm
    by_cases hv : e.value > t
    · simp [hw, hw2, hv]
    · simp [hw, hw2, hv]

theorem dealsLoop_decoded (p : Platform) (w t : Int) :
    ∀ (deals : List Json) (evs : List Deal) (acc : List String), Decodes p deals evs →
      dealsLoop p w t deals acc =
        some (acc ++ (survivors w t evs).map fun e => formatDeal p e.side e.value e.timestamp) := by
  intro deals
  induction deals with
  | nil =>
    intro evs acc h
    rw [(decodes_nil_left p evs).mp h]
    simp [dealsLoop, survivors_nil]
  | cons d ds ih =>
    intro evs acc h
    obtain ⟨e, es, rfl, hd, hds⟩ := (decodes_cons_left p d ds evs).mp h
    rw [dealsLoop, dealStep_decoded p w t d e hd, survivors_cons]
    by_cases hw : w = e.timestamp
    · simp [hw]
    · by_cases hv : e.value > t
      · simp only [hw, hv, if_true, if_false]
        rw [ih es _ hds]
        simp
      · simp only [hw, hv, if_false]
        rw [ih es _ hds]
        simp

theorem updateFirstRow_decoded (p : Platform) (w : Int) (d : Json) (ds : List Json) (e : Deal)
    (h : decodeDeal p d = some e) : updateFirstRow w (d :: ds) = some e.timestamp := by
  cases d with
  | obj m =>
    simp only [decodeDeal, Option.bind_eq_some, Option.map_eq_some'] at h
    obtain ⟨v, hv, value, hval, ts, hts, it, hit, side, hside, rfl⟩ := h
    simp only [updateFirstRow, hts, hit]
  | null => simp [decodeDeal] at h
  | bool b => simp [decodeDeal] at h
  | num => simp [decodeDeal] at h
  | str s => simp [decodeDeal] at h
  | arr xs => simp [decodeDeal] at h

theorem processDeals_decoded (p : Platform) (g : Globals) (d : Json) (ds : List Json)
    (e : Deal) (es : List Deal) (h : Decodes p (d :: ds) (e :: es)) :
    processDeals p (d :: ds) g =
      (Outcome.ok (report p (survivors g.previousFirstRow g.minValueToDisplay (e :: es))),
        { g with previousFirstRow := e.timestamp }) := by
  obtain ⟨e1, es1, heq, hd, _⟩ := (decodes_cons_left p d ds (e :: es)).mp h
  have he : e1 = e := by
    cases heq; rfl
  subst he
  unfold processDeals
  simp only [dealsLoop_decoded p _ _ (d :: ds) (e1 :: es) [] h,
    updateFirstRow_decoded p _ d ds e1 hd, List.nil_append, report]

theorem fetchData_decoded (p : Platform) (g : Globals) (result : List (String × Json))
    (deals : List Json) (hlist : extractDeals result = some (some deals)) :
    fetchData p (Response.decoded result) g = processDeals p deals g := by
  simp only [fetchData, hlist]

theorem boundary_le (w : Int) (evs : List Deal) : boundary w evs ≤ evs.length := by
  unfold boundary
  exact List.findIdx_le_length _

theorem decodes_nonempty (p : Platform) (deals : List Json) (evs : List Deal)
    (hne : deals ≠ []) (h : Decodes p deals evs) :
    ∃ d ds e es, deals = d :: ds ∧ evs = e :: es := by
  cases deals with
  | nil => exact absurd rfl hne
  | cons d ds =>
    obtain ⟨e, es, rfl, _, _⟩ := (decodes_cons_left p d ds evs).mp h
    exact ⟨d, ds, e, es, rfl, rfl⟩

/-! ## The claims -/

/-- C1. Dedup rule of one poll cycle: for every non-empty batch of well-formed
events `evs`, every prior watermark `w` and every threshold `t`, with `k` the
least index whose timestamp equals `w` (`k = n` when there is none), the text
returned by `fetchData` is exactly the formatted texts of the events of index
below `k` whose value exceeds `t`, in batch order, joined by a newline. -/
theorem fetchData_dedup (p : Platform) (result : List (String × Json)) (deals : List Json)
    (evs : List Deal) (w t : Int)
    (hlist : extractDeals result = some (some deals))
    (hne : deals ≠ [])
    (hwf : Decodes p deals evs) :
    (fetchData p (Response.decoded result) ⟨w, t⟩).1 =
        Outcome.ok (report p ((evs.take (boundary w evs)).filter fun e => e.value > t)) ∧
      boundary w evs ≤ evs.length ∧
      (∀ i : Fin evs.length, i.val < boundary w evs → (evs.get i).timestamp ≠ w) ∧
      (∀ i : Fin evs.length, i.val = boundary w evs → (evs.get i).timestamp = w) := by
  obtain ⟨d, ds, e, es, rfl, rfl⟩ := decodes_nonempty p deals evs hne hwf
  refine ⟨?_, boundary_le w _, ?_, ?_⟩
  · rw [fetchData_decoded p _ result _ hlist, processDeals_decoded p _ d ds e es hwf]
    rfl
  · intro i hi
    have := List.not_of_lt_findIdx (p := fun x : Deal => decide (x.timestamp = w)) hi
    simpa using this
  · intro i hi
    have hlt : List.findIdx (fun x : Deal => decide (x.timestamp = w)) (e :: es)
        < (e :: es).length := by
      have := i.isLt
      unfold boundary at hi
      omega
    have := List.findIdx_getElem (w := hlt)
    unfold boundary at hi
    simp only [decide_eq_true_eq] at this
    have hidx : i = ⟨List.findIdx (fun x : Deal => decide (x.timestamp = w)) (e :: es), hlt⟩ :=
      Fin.ext hi
    rw [hidx]
    exact this

/-- The witness of C1: with watermark 100 and batch timestamps 105, 100, 90
(all values above the threshold) only the event of timestamp 105 is in the
output. -/
theorem fetchData_dedup_witness :
    (fetchData utc (feed [item "600000" "Buy" "105", item "700000" "Sell" "100",
        item "800000" "Buy" "90"]) ⟨100, 500000⟩).1 =
      Outcome.ok "✅ Buy\t $ 600,000\n1970-01-01 00:01:45" :=
  (fetchData_dedup utc
    (envelope [item "600000" "Buy" "105", item "700000" "Sell" "100", item "800000" "Buy" "90"])
    [item "600000" "Buy" "105", item "700000" "Sell" "100", item "800000" "Buy" "90"]
    [⟨"Buy", 600000, 105⟩, ⟨"Sell", 700000, 100⟩, ⟨"Buy", 800000, 90⟩] 100 500000
    rfl (List.cons_ne_nil _ _) (by decide)).1.trans (by decide)


theorem survivors_append (w t : Int) (pre rest : List Deal)
    (hpre : ∀ x ∈ pre, x.timestamp ≠ w) :
    survivors w t (pre ++ rest) = (pre.filter fun e => e.value > t) ++ survivors w t rest := by
  induction pre with
  | nil => simp
  | cons x xs ih =>
    have hx : ¬ w = x.timestamp := fun h => hpre x (List.mem_cons_self _ _) h.symm
    have hxs : ∀ y ∈ xs, y.timestamp ≠ w := fun y hy => hpre y (List.mem_cons_of_mem _ hy)
    rw [List.cons_append, survivors_cons, ih hxs]
    by_cases hv : x.value > t
    · simp [hx, hv]
    · simp [hx, hv]

theorem survivors_all (w t : Int) (evs : List Deal) (h : ∀ x ∈ evs, x.timestamp ≠ w) :
    survivors w t evs = evs.filter fun e => e.value > t := by
  have := survivors_append w t evs [] h
  simpa [survivors_nil] using this

/-- C2. Watermark advance: for every non-empty batch of well-formed events,
every prior watermark `w` and every threshold, the cycle completes and leaves
`previousFirstRow` equal to the timestamp of the first (newest) element of
the batch; so any two thresholds `t1`, `t2` give the same watermark. -/
theorem watermark_advance (p : Platform) (result : List (String × Json)) (d : Json)
    (ds : List Json) (e : Deal) (es : List Deal) (w t1 t2 : Int)
    (hlist : extractDeals result = some (some (d :: ds)))
    (hwf : Decodes p (d :: ds) (e :: es)) :
    (∃ text, (fetchData p (Response.decoded result) ⟨w, t1⟩).1 = Outcome.ok text) ∧
      (fetchData p (Response.decoded result) ⟨w, t1⟩).2.previousFirstRow = e.timestamp ∧
      (fetchData p (Response.decoded result) ⟨w, t2⟩).2.previousFirstRow =
        (fetchData p (Response.decoded result) ⟨w, t1⟩).2.previousFirstRow := by
  rw [fetchData_decoded p _ result _ hlist, fetchData_decoded p _ result _ hlist,
    processDeals_decoded p _ d ds e es hwf, processDeals_decoded p _ d ds e es hwf]
  exact ⟨⟨_, rfl⟩, rfl, rfl⟩

/-- The witness of C2: the newest element (value 300000, timestamp 100) is
below the threshold 500000 and does not appear in the output, yet the
watermark becomes 100, as it does with the threshold 0. -/
theorem watermark_advance_witness :
    fetchData utc (feed [item "300,000" "Sell" "100", item "900,000" "Buy" "90"]) ⟨0, 500000⟩ =
        (Outcome.ok "✅ Buy\t $ 900,000\n1970-01-01 00:01:30", ⟨100, 500000⟩) ∧
      (fetchData utc (feed [item "300,000" "Sell" "100", item "900,000" "Buy" "90"])
          ⟨0, 0⟩).2.previousFirstRow = 100 :=
  have h := watermark_advance utc
    (envelope [item "300,000" "Sell" "100", item "900,000" "Buy" "90"])
    (item "300,000" "Sell" "100") [item "900,000" "Buy" "90"]
    ⟨"Sell", 300000, 100⟩ [⟨"Buy", 900000, 90⟩] 0 500000 0 rfl (by decide)
  ⟨by decide, h.2.2.trans h.2.1⟩

/-- C3 (amended). Threshold filter on the truncated value: an event that
survives dedup (no event before it, nor itself, has the watermark's timestamp)
contributes its text to the output, at its place, if and only if its value
converted to int64 (the parsed float64 truncated toward zero) is strictly
greater than the threshold. -/
theorem threshold_filter (p : Platform) (result : List (String × Json))
    (pre post : List Json) (d : Json) (evsPre evsPost : List Deal) (e : Deal) (w t : Int)
    (hlist : extractDeals result = some (some (pre ++ d :: post)))
    (hpre : Decodes p pre evsPre) (hd : decodeDeal p d = some e)
    (hpost : Decodes p post evsPost)
    (hsurv : ∀ x ∈ evsPre, x.timestamp ≠ w) (he : e.timestamp ≠ w) :
    (fetchData p (Response.decoded result) ⟨w, t⟩).1 =
      Outcome.ok (String.intercalate "\n"
        ((evsPre.filter fun x => x.value > t).map
            (fun x => formatDeal p x.side x.value x.timestamp) ++
          (if e.value > t then [formatDeal p e.side e.value e.timestamp] else []) ++
          (survivors w t evsPost).map fun x => formatDeal p x.side x.value x.timestamp)) := by
  have hdec : Decodes p (pre ++ d :: post) (evsPre ++ e :: evsPost) :=
    decodes_append p pre (d :: post) evsPre (e :: evsPost) hpre
      ((decodes_cons_left p d post (e :: evsPost)).mpr ⟨e, evsPost, rfl, hd, hpost⟩)
  have hne : pre ++ d :: post ≠ [] := by simp
  obtain ⟨d0, ds0, e0, es0, hd0, he0⟩ := decodes_nonempty p _ _ hne hdec
  rw [fetchData_decoded p _ result _ hlist]
  rw [hd0, he0] at hdec
  rw [hd0, processDeals_decoded p _ d0 ds0 e0 es0 hdec, ← he0]
  have hw : ¬ w = e.timestamp := fun h => he h.symm
  simp only [report, survivors_append w t evsPre (e :: evsPost) hsurv, survivors_cons, hw,
    if_false, List.map_append]
  by_cases hv : e.value > t
  · simp [hv]
  · simp [hv]

/-- The witness of C3: with threshold 500000, an event of value 500000 is
left out and an event of value 500001 is included. -/
theorem threshold_filter_witness :
    (fetchData utc (feed [item "500000" "Buy" "1000"]) ⟨0, 500000⟩).1 = Outcome.ok "" ∧
      (fetchData utc (feed [item "500001" "Buy" "1000"]) ⟨0, 500000⟩).1 =
        Outcome.ok "✅ Buy\t $ 500,001\n1970-01-01 00:16:40" :=
  ⟨(threshold_filter utc (envelope [item "500000" "Buy" "1000"]) [] []
      (item "500000" "Buy" "1000") [] [] ⟨"Buy", 500000, 1000⟩ 0 500000 rfl
      (by decide) (by decide) (by decide)
      (by decide) (by decide)).trans (by decide),
    (threshold_filter utc (envelope [item "500001" "Buy" "1000"]) [] []
      (item "500001" "Buy" "1000") [] [] ⟨"Buy", 500001, 1000⟩ 0 500000 rfl
      (by decide) (by decide) (by decide)
      (by decide) (by decide)).trans (by decide)⟩

/-- C3 (counterexample). The feed value `500000.5` is the decimal 5000005/10,
strictly greater than the threshold 500000, and the event survives dedup
(timestamp 1000, watermark 0); yet the output of the cycle is empty. -/
theorem threshold_fractional_excluded :
    (readFloat (removeCommas "500000.5".data)).map Scan.ratio = some (5000005, 10) ∧
      500000 * 10 < 5000005 ∧
      parseValue utc "500000.5" = some 500000 ∧
      fetchData utc (feed [item "500000.5" "Buy" "1000"]) ⟨0, 500000⟩ =
        (Outcome.ok "", ⟨1000, 500000⟩) := by
  decide

theorem formatDeal_buy (p : Platform) (v ts : Int) :
    formatDeal p "Buy" v ts =
      "✅ Buy" ++ "\t $ " ++ String.mk (addCommas (formatInt v)) ++ "\n" ++ p.formatTime ts := by
  have h : "✅" ++ " " ++ "Buy" = "✅ Buy" := by decide
  have hne : ¬ ("Buy" = "Sell") := by decide
  simp only [formatDeal, hne, if_false, if_true, h]

theorem formatDeal_sell (p : Platform) (v ts : Int) :
    formatDeal p "Sell" v ts =
      "❌ Sell" ++ "\t $ " ++ String.mk (addCommas (formatInt v)) ++ "\n" ++ p.formatTime ts := by
  have h : "❌" ++ " " ++ "Sell" = "❌ Sell" := by decide
  simp only [formatDeal, if_true, h]

/-- C9. Notification text: for every non-empty batch of well-formed events
whose sides are Buy or Sell, the output of the cycle is the newline-joined
list, over the reported events, of `✅ Buy` (for a Buy) or `❌ Sell` (for a
Sell), then a tab, ` $ `, the comma grouping of the value, a newline, and the
rendering of the timestamp. -/
theorem notification_text (p : Platform) (result : List (String × Json)) (deals : List Json)
    (evs : List Deal) (w t : Int)
    (hlist : extractDeals result = some (some deals))
    (hne : deals ≠ [])
    (hwf : Decodes p deals evs)
    (hside : ∀ e ∈ evs, e.side = "Buy" ∨ e.side = "Sell") :
    (fetchData p (Response.decoded result) ⟨w, t⟩).1 =
      Outcome.ok (String.intercalate "\n" ((survivors w t evs).map fun e =>
        (if e.side = "Buy" then "✅ Buy" else "❌ Sell") ++ "\t $ " ++
          String.mk (addCommas (formatInt e.value)) ++ "\n" ++ p.formatTime e.timestamp)) := by
  obtain ⟨d, ds, e, es, rfl, rfl⟩ := decodes_nonempty p deals evs hne hwf
  rw [fetchData_decoded p _ result _ hlist, processDeals_decoded p _ d ds e es hwf]
  simp only [report]
  congr 2
  apply List.map_congr_left
  intro x hx
  have hmem : x ∈ e :: es :=
    List.mem_of_mem_take (List.mem_of_mem_filter hx)
  rcases hside x hmem with hb | hs
  · rw [hb, formatDeal_buy]
    simp
  · rw [hs, formatDeal_sell]
    have hne2 : ¬ ("Sell" = "Buy") := by decide
    simp [hne2]

/-- The witness of C9: the feed of the scenario, with threshold 500000 and
watermark 0, gives the single text of the Buy event and the watermark 1000. -/
theorem notification_text_witness :
    fetchData utc (feed [item "1,200,000" "Buy" "1000", item "300,000" "Sell" "999"])
        ⟨0, 500000⟩ =
      (Outcome.ok ("✅ Buy\t $ 1,200,000\n" ++ utc.formatTime 1000), ⟨1000, 500000⟩) :=
  Prod.ext
    ((notification_text utc
      (envelope [item "1,200,000" "Buy" "1000", item "300,000" "Sell" "999"])
      [item "1,200,000" "Buy" "1000", item "300,000" "Sell" "999"]
      [⟨"Buy", 1200000, 1000⟩, ⟨"Sell", 300000, 999⟩] 0 500000 rfl (List.cons_ne_nil _ _)
      (by decide) (by decide)).trans (by decide))
    (by decide)


theorem pollBlock_ok (p : Platform) (chat : Int) (resp : Response) (b : Bot) (text : String)
    (g : Globals) (h : fetchData p resp b.globals = (Outcome.ok text, g)) :
    (pollBlock p chat resp b).1.sent =
      b.sent ++ (if text.length ≠ 0 then [(chat, text)] else []) := by
  unfold pollBlock
  rw [h]
  by_cases ht : text.length ≠ 0
  · simp [ht, Bot.send]
  · simp [ht]

/-- C4 (amended). A decoded response whose `result` is an object without a
`list` array: the cycle returns the text `No data found` with no error and
leaves the package variables (the watermark among them) unchanged; the caller
delivers that text, since it is not empty. -/
theorem no_list_found (p : Platform) (result r : List (String × Json)) (chat : Int) (b : Bot)
    (hres : index result "result" = some (Json.obj r))
    (hno : ∀ deals, index r "list" ≠ some (Json.arr deals)) :
    fetchData p (Response.decoded result) b.globals = (Outcome.ok "No data found", b.globals) ∧
      (pollBlock p chat (Response.decoded result) b).1.sent =
        b.sent ++ [(chat, "No data found")] := by
  have hx : extractDeals result = some none := by
    unfold extractDeals
    rw [hres]
    show (match index r "list" with
      | some (Json.arr deals) => some (some deals)
      | _ => some none) = some none
    split
    · next deals heq => exact absurd heq (hno deals)
    · rfl
  have hf : fetchData p (Response.decoded result) b.globals =
      (Outcome.ok "No data found", b.globals) := by
    simp only [fetchData, hx]
  refine ⟨hf, ?_⟩
  rw [pollBlock_ok p chat _ b _ _ hf]
  have hlen : "No data found".length ≠ 0 := by decide
  simp [hlen]

/-- The witness of C4 (amended): a response `{"ret_code": .., "result": {}}`
with watermark 100. -/
theorem no_list_found_witness :
    fetchData utc (Response.decoded [("ret_code", Json.num), ("result", Json.obj [])])
        ⟨100, 500000⟩ = (Outcome.ok "No data found", ⟨100, 500000⟩) :=
  (no_list_found utc [("ret_code", Json.num), ("result", Json.obj [])] [] 7
    ⟨⟨100, 500000⟩, [], 1, false, Status.running⟩ rfl
    (fun deals h => by simp [index] at h)).1

/-- C4 (counterexample). For the response `{"ret_code": .., "result": {}}`,
in which the list is absent, the text returned by the cycle is not empty, and
the block that polls on Subscribe sends it to the chat. -/
theorem no_list_text_not_empty :
    (fetchData utc (Response.decoded [("ret_code", Json.num), ("result", Json.obj [])])
        ⟨100, 500000⟩).1 ≠ Outcome.ok "" ∧
      (step utc ⟨⟨100, 500000⟩, [], 0, false, Status.running⟩
        (Event.update 7 "Subscribe"
          (Response.decoded [("ret_code", Json.num), ("result", Json.obj [])]))).sent =
        [(7, "Bot started."), (7, "No data found")] := by
  decide

theorem dealsLoop_append (p : Platform) (w t : Int) (rest : List Json) :
    ∀ (pre : List Json) (evsPre : List Deal) (acc : List String), Decodes p pre evsPre →
      (∀ x ∈ evsPre, x.timestamp ≠ w) →
      dealsLoop p w t (pre ++ rest) acc =
        dealsLoop p w t rest
          (acc ++ (evsPre.filter fun e => e.value > t).map fun e =>
            formatDeal p e.side e.value e.timestamp) := by
  intro pre
  induction pre with
  | nil =>
    intro evsPre acc h _
    rw [(decodes_nil_left p evsPre).mp h]
    simp
  | cons d ds ih =>
    intro evsPre acc h hts
    obtain ⟨e, es, rfl, hd, hds⟩ := (decodes_cons_left p d ds evsPre).mp h
    have hw : ¬ w = e.timestamp := fun h => hts e (List.mem_cons_self _ _) h.symm
    have hes : ∀ x ∈ es, x.timestamp ≠ w := fun x hx => hts x (List.mem_cons_of_mem _ hx)
    rw [List.cons_append, dealsLoop, dealStep_decoded p w t d e hd]
    by_cases hv : e.value > t
    · simp only [hw, hv, if_true, if_false]
      rw [ih es _ hds hes]
      simp [hv]
    · simp only [hw, hv, if_false]
      rw [ih es _ hds hes]
      simp [hv]

theorem dealStep_malformed (p : Platform) (w t : Int) (m : List (String × Json)) (v : String)
    (hv : asString (index m "value") = some v)
    (hbad : parseFloat (removeCommas v.data) = none ∨
      ∃ ts, asString (index m "timestamp") = some ts ∧ parseInt ts.data = none) :
    dealStep p w t (Json.obj m) = Step.panic := by
  unfold dealStep
  simp only [hv]
  cases hval : parseValue p v with
  | none => rfl
  | some value =>
    rcases hbad with hf | ⟨ts, hts, hint⟩
    · simp [parseValue, hf] at hval
    · simp only [hts, hint]

/-- A malformed numeric field that the scan reaches: when the items before it
are well-formed events whose timestamps differ from the watermark `w`, and the
item is an object whose value (commas removed) is not parsable by
`ParseFloat`, or whose timestamp is not parsable by `ParseInt`, the call of
`fetchData` ends in a panic, with the package variables as they were. -/
theorem malformed_field_reached (p : Platform) (result : List (String × Json))
    (pre post : List Json) (m : List (String × Json)) (evsPre : List Deal) (v : String)
    (w t : Int)
    (hlist : extractDeals result = some (some (pre ++ Json.obj m :: post)))
    (hpre : Decodes p pre evsPre) (hsurv : ∀ x ∈ evsPre, x.timestamp ≠ w)
    (hv : asString (index m "value") = some v)
    (hbad : parseFloat (removeCommas v.data) = none ∨
      ∃ ts, asString (index m "timestamp") = some ts ∧ parseInt ts.data = none) :
    fetchData p (Response.decoded result) ⟨w, t⟩ = (Outcome.panic, ⟨w, t⟩) := by
  have hloop : dealsLoop p w t (pre ++ Json.obj m :: post) [] = none := by
    rw [dealsLoop_append p w t _ pre evsPre [] hpre hsurv, dealsLoop,
      dealStep_malformed p w t m v hv hbad]
  rw [fetchData_decoded p _ result _ hlist]
  unfold processDeals
  simp only [hloop]

/-- C5 (failing input). A batch whose only item has the value `12x`, which
`ParseFloat` rejects, and a batch whose only item has the timestamp `10x4`,
which `ParseInt` rejects: in both cases `fetchData` does not return an error
to its caller, it panics (`panic(err)`, main.go:189-191 and 204-206), and the
process that handles Subscribe with such a feed is left crashed. The
watermark is still 100 at the panic. A decode error of the body, by contrast,
is returned as an error. -/
theorem malformed_field_panics :
    parseFloat (removeCommas "12x".data) = none ∧
      fetchData utc (feed [item "12x" "Buy" "104"]) ⟨100, 500000⟩ =
        (Outcome.panic, ⟨100, 500000⟩) ∧
      parseInt "10x4".data = none ∧
      fetchData utc (feed [item "600000" "Buy" "10x4"]) ⟨100, 500000⟩ =
        (Outcome.panic, ⟨100, 500000⟩) ∧
      (step utc Bot.init
        (Event.update 7 "Subscribe" (feed [item "12x" "Buy" "104"]))).status =
          Status.crashed ∧
      fetchData utc Response.decodeError ⟨100, 500000⟩ = (Outcome.error, ⟨100, 500000⟩) := by
  decide

/-- A malformed item that the scan does not reach: the third item of the batch
has an unparsable value and an unparsable timestamp, but it lies after the
item whose timestamp equals the watermark 100, where the loop breaks
(main.go:208-210); the cycle returns a text without error and moves the
watermark to 105. -/
theorem malformed_after_boundary_ignored :
    parseFloat (removeCommas "abc".data) = none ∧ parseInt "xyz".data = none ∧
      fetchData utc (feed [item "600000" "Buy" "105", item "700000" "Sell" "100",
          item "abc" "Buy" "xyz"]) ⟨100, 500000⟩ =
        (Outcome.ok "✅ Buy\t $ 600,000\n1970-01-01 00:01:45", ⟨105, 500000⟩) := by
  decide

/-- C10 (failing input). On a response whose `result.list` is the empty
array, `fetchData` does not return: reading `deals[0]` panics, whatever the
package variables. -/
theorem empty_list_panics (p : Platform) (g : Globals) :
    fetchData p (feed []) g = (Outcome.panic, g) := by
  rfl

theorem handleUpdate_subscribe_sent (p : Platform) (chat : Int) (resp : Response) (b : Bot)
    (text : String) (g : Globals) (h : fetchData p resp b.globals = (Outcome.ok text, g)) :
    (handleUpdate p chat "Subscribe" resp b).sent =
      b.sent ++ (chat, "Bot started.") :: (if text.length ≠ 0 then [(chat, text)] else []) := by
  have hs : (b.send chat "Bot started.").globals = b.globals := rfl
  have hp := pollBlock_ok p chat resp (b.send chat "Bot started.") text g (hs ▸ h)
  have hflag : (pollBlock p chat resp (b.send chat "Bot started.")).2 = true := by
    unfold pollBlock
    rw [hs, h]
  unfold handleUpdate
  simp only [if_true, hflag]
  rw [hp]
  simp [Bot.send]

/-- C6 (amended). Subscribe polls with the process-wide watermark, which is
zero only until a cycle has moved it: for every state reached by a sequence
of events in which the process is running and `previousFirstRow` is still
zero (as at the start of `main`), handling Subscribe sends `Bot started.` and
then, for a non-empty batch of well-formed events with positive timestamps,
the joined texts of all the events whose value exceeds the threshold (nothing
when there is none). -/
theorem subscribe_from_zero (p : Platform) (history : List Event) (chat : Int)
    (result : List (String × Json)) (deals : List Json) (evs : List Deal)
    (hrun : (run p history).status = Status.running)
    (hzero : (run p history).globals.previousFirstRow = 0)
    (hlist : extractDeals result = some (some deals))
    (hne : deals ≠ [])
    (hwf : Decodes p deals evs)
    (hpos : ∀ e ∈ evs, 0 < e.timestamp) :
    (step p (run p history) (Event.update chat "Subscribe" (Response.decoded result))).sent =
      (run p history).sent ++ (chat, "Bot started.") ::
        (if (report p (evs.filter fun e =>
              e.value > (run p history).globals.minValueToDisplay)).length ≠ 0 then
          [(chat, report p (evs.filter fun e =>
              e.value > (run p history).globals.minValueToDisplay))]
        else []) := by
  obtain ⟨d, ds, e, es, rfl, rfl⟩ := decodes_nonempty p deals evs hne hwf
  have hts : ∀ x ∈ e :: es, x.timestamp ≠ (run p history).globals.previousFirstRow := by
    intro x hx
    rw [hzero]
    exact ne_of_gt (hpos x hx)
  have hf := processDeals_decoded p (run p history).globals d ds e es hwf
  rw [← fetchData_decoded p _ result _ hlist, survivors_all _ _ _ hts] at hf
  have hstep : step p (run p history) (Event.update chat "Subscribe" (Response.decoded result)) =
      handleUpdate p chat "Subscribe" (Response.decoded result) (run p history) := by
    unfold step
    rw [hrun]
  rw [hstep]
  exact handleUpdate_subscribe_sent p chat _ _ _ _ hf

/-- The witness of C6 (amended): Subscribe as the first event of the process,
on a batch of two events, one of them above the default threshold. -/
theorem subscribe_from_zero_witness :
    (run utc [Event.update 7 "Subscribe"
        (feed [item "1,200,000" "Buy" "1000", item "300,000" "Sell" "999"])]).sent =
      [(7, "Bot started."), (7, "✅ Buy\t $ 1,200,000\n1970-01-01 00:16:40")] :=
  (subscribe_from_zero utc [] 7
    (envelope [item "1,200,000" "Buy" "1000", item "300,000" "Sell" "999"])
    [item "1,200,000" "Buy" "1000", item "300,000" "Sell" "999"]
    [⟨"Buy", 1200000, 1000⟩, ⟨"Sell", 300000, 999⟩] rfl rfl rfl (List.cons_ne_nil _ _)
    (by decide) (by decide)).trans (by decide)

/-- C6 (counterexample). After a first Subscribe whose cycle saw an event of
timestamp 100, the watermark is 100; a second Subscribe, on a batch of two
well-formed events with positive timestamps and values above the threshold
500000, delivers only the event of timestamp 105: the event of timestamp 100
is excluded by dedup. -/
theorem subscribe_not_from_zero :
    (run utc [Event.update 7 "Subscribe" (feed [item "600000" "Buy" "100"])]).globals =
        ⟨100, 500000⟩ ∧
      Decodes utc [item "700000" "Sell" "105", item "600000" "Buy" "100"]
        [⟨"Sell", 700000, 105⟩, ⟨"Buy", 600000, 100⟩] ∧
      (run utc [Event.update 7 "Subscribe" (feed [item "600000" "Buy" "100"]),
        Event.update 7 "Subscribe"
          (feed [item "700000" "Sell" "105", item "600000" "Buy" "100"])]).sent =
        [(7, "Bot started."), (7, "✅ Buy\t $ 600,000\n1970-01-01 00:01:40"),
          (7, "Bot started."), (7, "❌ Sell\t $ 700,000\n1970-01-01 00:01:45")] := by
  decide

end BigDeal
